import Mathlib

/-!
Verification of the core logic of the Accelerated-reader RSVP application.

The embedding covers the two core components of `src/main.js`:
* `AnchorEngine` (the pivot-selection engine, second half of the file,
  exported from `urp.js`): a stateful engine holding `lastAnchorChar`,
  whose `process` method picks a pivot index for a chunk string.
* The `App` playback loop (`runLoop`, `start`, `stop`, the WPM slider
  handler, and `renderHeatmap`): a timer-driven scheduler that advances
  through the word sequence, accelerates the rate, records analytics
  samples and computes per-chunk delays.

JS strings are modelled as `List Char` (indexing, `length`, per-character
`toLowerCase`); JS numbers as `ℚ` (with `ℤ` where the code stores rounded
integers); `Math.round` is `round` (⌊x + 1/2⌋, matching JS half-up
rounding); `null`/missing values as `Option`.
-/

/-- JS `Math.abs(curr - idealCenter)` on two indices. -/
def absDist (i center : ℕ) : ℕ := ((i : ℤ) - (center : ℤ)).natAbs

namespace AnchorEngine

/-- The indices of `text` whose character matches `c` case-insensitively:
the `matches` array built by the `for` loop in `AnchorEngine.process`
(src/main.js lines 374–379), `word[i].toLowerCase() === lastAnchorChar.toLowerCase()`. -/
def matchIdxs (c : Char) (text : List Char) : List ℕ :=
  (List.range text.length).filter fun i => (text.getD i ' ').toLower = c.toLower

/-- The reduction callback of src/main.js line 386:
`(prev, curr) => Math.abs(curr - idealCenter) < Math.abs(prev - idealCenter) ? curr : prev`. -/
def closer (center prev curr : ℕ) : ℕ :=
  if absDist curr center < absDist prev center then curr else prev

/-- The `matches.reduce` call (src/main.js lines 385–387): starting from the
first match, keep the previous candidate unless the current one is strictly
closer to `idealCenter`. `reduce` with no initial value uses `matches[0]`
as the accumulator and folds over the rest. Returns `none` on an empty list
(the code guards with `matches.length > 0`). -/
def pickClosest (center : ℕ) (ms : List ℕ) : Option ℕ :=
  match ms with
  | [] => none
  | m :: rest => some (rest.foldl (closer center) m)

/-- Result of `AnchorEngine.process`: `{ pivotIndex, anchorChar }`.
The empty-string degenerate result has `anchorChar := none`,
modelling the JS empty string `''`; otherwise it is `some` of the single
anchor character. -/
structure PivotResult where
  pivotIndex : ℕ
  anchorChar : Option Char
deriving Repr, DecidableEq

/-- The fallback "standard ORP" pivot (src/main.js lines 406–407):
`pivotIndex = Math.ceil(len / 2) - 1; if (pivotIndex < 0) pivotIndex = 0`.
`Math.ceil(len / 2)` on a natural `len` is `(len + 1) / 2` in integer
division (`ceil_half` below proves the correspondence to the real `⌈·⌉`). -/
def fallbackPivot (len : ℕ) : ℕ :=
  let p : ℤ := ((len : ℤ) + 1) / 2 - 1
  (if p < 0 then 0 else p).toNat

/-- `AnchorEngine.process(word)` (src/main.js lines 364–416).
State `st` is `this.lastAnchorChar` (`none` = JS `null`). Returns the
`PivotResult` together with the updated engine state.

* Empty input returns `{ pivotIndex: 0, anchorChar: '' }` without touching
  the state (line 365).
* Sticky-anchor strategy (lines 372–389): if a last anchor exists and it
  matches somewhere, pick the match closest to `Math.floor(len / 2)` via
  the strict-`<` reduce.
* Fallback (lines 393–408): the ladder of `if`s on lines 397–401 is dead —
  line 406 unconditionally overwrites `pivotIndex` with
  `Math.ceil(len / 2) - 1`, clamped below at 0 (line 407). We model the
  net effect: `ceil` on a nonnegative integer `len` is `(len + 1) / 2`
  in integer division.
* Line 410 stores `word[pivotIndex]` as the new `lastAnchorChar`. -/
def process (st : Option Char) (word : List Char) : PivotResult × Option Char :=
  if word.isEmpty then ({ pivotIndex := 0, anchorChar := none }, st)
  else
    let len := word.length
    let sticky : Option ℕ :=
      match st with
      | none => none
      | some c => pickClosest (len / 2) (matchIdxs c word)
    let pivotIndex : ℕ :=
      match sticky with
      | some p => p
      | none => fallbackPivot len
    let anchor := word.getD pivotIndex ' '
    ({ pivotIndex := pivotIndex, anchorChar := some anchor }, some anchor)

end AnchorEngine

namespace App

/-- `chunk.join(' ')` (src/main.js line 198, also line 220): the chunk's
words joined with single spaces. -/
def joinSpace (chunk : List (List Char)) : List Char :=
  List.intercalate [' '] chunk

/-- One entry of `this.sessionData` (src/main.js lines 197–201):
`{ words: chunk.join(' '), wpm: Math.round(this.wpm),
   timestamp: Date.now() - this.sessionStartTime }`. -/
structure Sample where
  words : List Char
  wpm : ℤ
  timestamp : ℤ
deriving Repr, DecidableEq

/-- The mutable `App` state touched by the playback loop:
`this.words`, `this.currentIndex`, `this.isPlaying`, `this.wpm`,
`this.chunkSize`, `this.sessionData`, `this.sessionStartTime`, and the
engine's `this.engine.lastAnchorChar`. The DOM elements and the pending
`this.timer` handle are presentation glue and live outside the model;
a tick's scheduled delay is returned explicitly instead. -/
structure AppState where
  words : List (List Char)
  currentIndex : ℕ
  isPlaying : Bool
  wpm : ℚ
  chunkSize : ℕ
  sessionData : List Sample
  sessionStartTime : ℤ
  lastAnchorChar : Option Char
deriving Repr, DecidableEq

/-- The delay computation of `runLoop` (src/main.js lines 203–212):
`msPerWord = 60000 / wpm`, `delay = msPerWord * chunk.length`, plus
`msPerWord * 1.5` when the chunk's last word (`chunk[chunk.length - 1]`)
ends in `.`, `!` or `?`, else `msPerWord * 0.5` when it ends in `,` or
`;`, else nothing. A single-character suffix test `endsWith(c)` is the
last-character comparison (false on the empty word). -/
def delayFor (chunk : List (List Char)) (wpm : ℚ) : ℚ :=
  let msPerWord : ℚ := 60000 / wpm
  let delay := msPerWord * chunk.length
  let lastWord := (chunk.getLast?).getD []
  let extraDelay : ℚ :=
    if lastWord.getLast? = some '.' ∨ lastWord.getLast? = some '!' ∨
        lastWord.getLast? = some '?' then
      msPerWord * (3 / 2)
    else if lastWord.getLast? = some ',' ∨ lastWord.getLast? = some ';' then
      msPerWord * (1 / 2)
    else 0
  delay + extraDelay

/-- One invocation of `App.runLoop` (src/main.js lines 177–217), with
`now` standing for `Date.now()`. Returns the new state and the delay
passed to `setTimeout` (`none` when no tick was scheduled):

* not playing (line 178): no-op;
* `currentIndex >= words.length` (lines 180–184): `stop()` and show the
  report;
* otherwise: slice out the chunk, advance `currentIndex` by `chunkSize`
  (lines 186–187), render it — which runs `engine.process` on the joined
  chunk (line 221), updating `lastAnchorChar` — then accelerate
  `wpm := Math.min(1200, wpm + 0.5 * chunk.length)` (lines 192–193),
  push the analytics sample (lines 197–201), and schedule the next tick
  after `delay + extraDelay` (lines 203–216). -/
def runLoop (s : AppState) (now : ℤ) : AppState × Option ℚ :=
  if s.isPlaying = false then (s, none)
  else if s.words.length ≤ s.currentIndex then
    ({ s with isPlaying := false }, none)
  else
    let chunk := (s.words.drop s.currentIndex).take s.chunkSize
    let currentIndex := s.currentIndex + s.chunkSize
    let lastAnchorChar := (AnchorEngine.process s.lastAnchorChar (joinSpace chunk)).2
    let wpm : ℚ := min 1200 (s.wpm + (1 / 2) * chunk.length)
    let sample : Sample :=
      { words := joinSpace chunk, wpm := round wpm, timestamp := now - s.sessionStartTime }
    ({ s with currentIndex := currentIndex, lastAnchorChar := lastAnchorChar,
              wpm := wpm, sessionData := s.sessionData ++ [sample] },
     some (delayFor chunk wpm))

/-- `App.stop` (src/main.js lines 161–165): clear `isPlaying`; the
`clearTimeout` call cancels the external timer handle. -/
def stop (s : AppState) : AppState := { s with isPlaying := false }

/-- `App.start` (src/main.js lines 154–159): set `isPlaying`, record
`sessionStartTime = Date.now()`, and run the loop once immediately. -/
def start (s : AppState) (now : ℤ) : AppState × Option ℚ :=
  runLoop { s with isPlaying := true, sessionStartTime := now } now

/-- The WPM slider `input` handler (src/main.js lines 56–64): store the
parsed integer rate, and if playing, `stop()` then `start()` to restart
the timer with the new speed. -/
def handleWpmInput (s : AppState) (v : ℤ) (now : ℤ) : AppState × Option ℚ :=
  let s := { s with wpm := (v : ℚ) }
  if s.isPlaying then start (stop s) now else (s, none)

/-- A sequence of `runLoop` ticks driven by the timer, one per entry of
`times` (the `Date.now()` value observed at each tick). -/
def runTicks (s : AppState) (times : List ℤ) : AppState :=
  times.foldl (fun s t => (runLoop s t).1) s

/-- `Math.max(...this.sessionData.map(d => d.wpm))` (src/main.js line 315);
total with default 0 for the empty list, which `renderHeatmap` is only
reached with non-empty data in practice. -/
def maxWpmOf (l : List ℤ) : ℤ := (l.max?).getD 0

/-- `Math.min(...)` (src/main.js line 316), likewise. -/
def minWpmOf (l : List ℤ) : ℤ := (l.min?).getD 0

/-- The normalized heatmap intensity of one sample (src/main.js line 326):
`(item.wpm - minWpm) / (maxWpm - minWpm || 1)` — the JS `|| 1` replaces a
zero denominator by 1. -/
def normalizedIntensity (data : List Sample) (item : Sample) : ℚ :=
  let maxWpm := maxWpmOf (data.map Sample.wpm)
  let minWpm := minWpmOf (data.map Sample.wpm)
  ((item.wpm : ℚ) - (minWpm : ℚ)) /
    (if ((maxWpm : ℚ) - (minWpm : ℚ)) = 0 then 1 else (maxWpm : ℚ) - (minWpm : ℚ))

/-- The recorded rates of the session time series, in push order. -/
def ratesOf (s : AppState) : List ℤ := s.sessionData.map Sample.wpm

/-- Invariant carried through the playback loop: the recorded rates are
non-decreasing, capped at the 1200 WPM maximum, and dominated by the
(clamped) current rate — which is what a later tick records next. -/
def RatesInv (s : AppState) : Prop :=
  (ratesOf s).Chain' (· ≤ ·) ∧
    ∀ r ∈ ratesOf s, r ≤ 1200 ∧ r ≤ round (min 1200 s.wpm)

end App

/-- A concrete two-word playback state ("hi yo."), paused at the start,
rate 300 WPM, chunk size 1, used to instantiate the theorems below. -/
def demoState : App.AppState :=
  { words := [['h', 'i'], ['y', 'o', '.']], currentIndex := 0, isPlaying := true,
    wpm := 300, chunkSize := 1, sessionData := [], sessionStartTime := 0,
    lastAnchorChar := none }

/-- A concrete two-sample session time series (rates 300 and 350). -/
def demoSamples : List App.Sample :=
  [{ words := ['a'], wpm := 300, timestamp := 0 },
   { words := ['b'], wpm := 350, timestamp := 100 }]

/-- A concrete one-rate session time series (both extrema equal). -/
def flatSamples : List App.Sample :=
  [{ words := ['a'], wpm := 300, timestamp := 0 },
   { words := ['b'], wpm := 300, timestamp := 100 }]

/-! ### Properties of the sticky-anchor reduction -/

namespace AnchorEngine

lemma foldl_closer_mem (center : ℕ) (l : List ℕ) : ∀ m : ℕ,
    l.foldl (closer center) m = m ∨ l.foldl (closer center) m ∈ l := by
  induction l with
  | nil => intro m; left; rfl
  | cons a l ih =>
    intro m
    rw [List.foldl_cons]
    rcases ih (closer center m a) with h | h
    · rw [h]
      unfold closer
      split
      · right; exact List.mem_cons_self a l
      · left; rfl
    · right; exact List.mem_cons_of_mem a h

lemma foldl_closer_min (center : ℕ) (l : List ℕ) : ∀ m : ℕ,
    absDist (l.foldl (closer center) m) center ≤ absDist m center ∧
      ∀ j ∈ l, absDist (l.foldl (closer center) m) center ≤ absDist j center := by
  induction l with
  | nil => intro m; exact ⟨le_refl _, by simp⟩
  | cons a l ih =>
    intro m
    rw [List.foldl_cons]
    obtain ⟨h1, h2⟩ := ih (closer center m a)
    have hma : absDist (closer center m a) center ≤ absDist m center ∧
        absDist (closer center m a) center ≤ absDist a center := by
      unfold closer
      split
      · exact ⟨le_of_lt ‹_›, le_refl _⟩
      · exact ⟨le_refl _, le_of_not_lt ‹_›⟩
    refine ⟨h1.trans hma.1, ?_⟩
    intro j hj
    rcases List.mem_cons.mp hj with rfl | hj
    · exact h1.trans hma.2
    · exact h2 j hj

lemma foldl_closer_tie (center : ℕ) (l : List ℕ) : ∀ m : ℕ,
    (∀ x ∈ l, m < x) → l.Pairwise (· < ·) →
    (absDist (l.foldl (closer center) m) center = absDist m center →
        l.foldl (closer center) m = m) ∧
      ∀ j ∈ l, absDist (l.foldl (closer center) m) center = absDist j center →
        l.foldl (closer center) m ≤ j := by
  induction l with
  | nil => intro m _ _; exact ⟨fun _ => rfl, by simp⟩
  | cons a l ih =>
    intro m hlt hpw
    rw [List.foldl_cons]
    have hma : m < a := hlt a (List.mem_cons_self a l)
    have hal : ∀ x ∈ l, a < x := fun x hx => (List.pairwise_cons.mp hpw).1 x hx
    have hpl := (List.pairwise_cons.mp hpw).2
    by_cases hc : absDist a center < absDist m center
    · have hca : closer center m a = a := if_pos hc
      rw [hca]
      obtain ⟨ih1, ih2⟩ := ih a hal hpl
      obtain ⟨hle1, _⟩ := foldl_closer_min center l a
      constructor
      · intro heq
        exfalso
        omega
      · intro j hj heq
        rcases List.mem_cons.mp hj with rfl | hjl
        · exact le_of_eq (ih1 heq)
        · exact ih2 j hjl heq
    · have hcm : closer center m a = m := if_neg hc
      rw [hcm]
      push_neg at hc
      have hml : ∀ x ∈ l, m < x := fun x hx => hlt x (List.mem_cons_of_mem a hx)
      obtain ⟨ih1, ih2⟩ := ih m hml hpl
      obtain ⟨hle1, _⟩ := foldl_closer_min center l m
      constructor
      · exact ih1
      · intro j hj heq
        rcases List.mem_cons.mp hj with rfl | hjl
        · have h' : absDist (l.foldl (closer center) m) center = absDist m center := by
            omega
          rw [ih1 h']
          exact le_of_lt hma
        · exact ih2 j hjl heq

lemma pickClosest_eq_none (center : ℕ) (ms : List ℕ) :
    pickClosest center ms = none ↔ ms = [] := by
  cases ms <;> simp [pickClosest]

lemma pickClosest_mem (center : ℕ) (ms : List ℕ) (r : ℕ)
    (h : pickClosest center ms = some r) : r ∈ ms := by
  match ms with
  | [] => simp [pickClosest] at h
  | m :: rest =>
    simp only [pickClosest, Option.some.injEq] at h
    rcases foldl_closer_mem center rest m with h' | h' <;> rw [← h]
    · rw [h']; exact List.mem_cons_self m rest
    · exact List.mem_cons_of_mem m h'

lemma pickClosest_spec (center : ℕ) (ms : List ℕ)
    (hne : ms ≠ []) (hpw : ms.Pairwise (· < ·)) :
    ∃ r, pickClosest center ms = some r ∧ r ∈ ms ∧
      (∀ j ∈ ms, absDist r center ≤ absDist j center) ∧
      ∀ j ∈ ms, absDist j center = absDist r center → r ≤ j := by
  match ms, hne with
  | m :: rest, _ =>
    refine ⟨rest.foldl (closer center) m, rfl, ?_⟩
    have hpc := List.pairwise_cons.mp hpw
    obtain ⟨hle1, hle2⟩ := foldl_closer_min center rest m
    obtain ⟨ht1, ht2⟩ := foldl_closer_tie center rest m hpc.1 hpc.2
    refine ⟨?_, ?_, ?_⟩
    · exact pickClosest_mem center (m :: rest) _ rfl
    · intro j hj
      rcases List.mem_cons.mp hj with rfl | hj
      · exact hle1
      · exact hle2 j hj
    · intro j hj heq
      rcases List.mem_cons.mp hj with rfl | hj
      · exact le_of_eq (ht1 heq.symm)
      · exact ht2 j hj heq.symm

end AnchorEngine

namespace AnchorEngine

lemma matchIdxs_pairwise (c : Char) (text : List Char) :
    (matchIdxs c text).Pairwise (· < ·) :=
  (List.pairwise_lt_range text.length).sublist (List.filter_sublist _)

lemma mem_matchIdxs {c : Char} {text : List Char} {i : ℕ} :
    i ∈ matchIdxs c text ↔
      i < text.length ∧ (text.getD i ' ').toLower = c.toLower := by
  simp [matchIdxs, List.mem_filter, List.mem_range]

lemma ceil_half (n : ℕ) : ⌈(n : ℚ) / 2⌉ = ((n : ℤ) + 1) / 2 := by
  have h1 : 2 * (((n : ℤ) + 1) / 2) ≤ (n : ℤ) + 1 := by omega
  have h3 : (n : ℤ) ≤ 2 * (((n : ℤ) + 1) / 2) := by omega
  have h1q : (2 : ℚ) * ((((n : ℤ) + 1) / 2 : ℤ) : ℚ) ≤ (n : ℚ) + 1 := by
    exact_mod_cast h1
  have h3q : (n : ℚ) ≤ 2 * ((((n : ℤ) + 1) / 2 : ℤ) : ℚ) := by exact_mod_cast h3
  rw [Int.ceil_eq_iff]
  exact ⟨by linarith, by linarith⟩

lemma fallbackPivot_lt {len : ℕ} (h : 1 ≤ len) : fallbackPivot len < len := by
  unfold fallbackPivot
  dsimp only
  split <;> omega

lemma fallbackPivot_coe (len : ℕ) :
    (fallbackPivot len : ℤ) = max 0 (⌈(len : ℚ) / 2⌉ - 1) := by
  unfold fallbackPivot
  dsimp only
  rw [ceil_half]
  split <;> omega

lemma process_pivot_of_sticky {c : Char} {text : List Char} (h : ¬text.isEmpty)
    {r : ℕ} (hr : pickClosest (text.length / 2) (matchIdxs c text) = some r) :
    (process (some c) text).1.pivotIndex = r := by
  simp [process, h, hr]

lemma process_pivot_fb_none {text : List Char} (h : ¬text.isEmpty) :
    (process none text).1.pivotIndex = fallbackPivot text.length := by
  simp [process, h]

lemma process_pivot_fb_nomatch {c : Char} {text : List Char} (h : ¬text.isEmpty)
    (hm : matchIdxs c text = []) :
    (process (some c) text).1.pivotIndex = fallbackPivot text.length := by
  simp [process, h, hm, pickClosest]

end AnchorEngine

/-! ### Arithmetic and list helpers for the scheduler -/

lemma round_mono_q {x y : ℚ} (h : x ≤ y) : round x ≤ round y := by
  rw [round_eq, round_eq]
  exact Int.floor_le_floor (by linarith)

namespace App

lemma le_foldl_max (t : List ℤ) : ∀ a : ℤ,
    a ≤ t.foldl max a ∧ ∀ x ∈ t, x ≤ t.foldl max a := by
  induction t with
  | nil => intro a; exact ⟨le_refl _, by simp⟩
  | cons b t ih =>
    intro a
    rw [List.foldl_cons]
    obtain ⟨h1, h2⟩ := ih (max a b)
    refine ⟨le_trans (le_max_left a b) h1, ?_⟩
    intro x hx
    rcases List.mem_cons.mp hx with rfl | hx
    · exact le_trans (le_max_right a x) h1
    · exact h2 x hx

lemma foldl_min_le (t : List ℤ) : ∀ a : ℤ,
    t.foldl min a ≤ a ∧ ∀ x ∈ t, t.foldl min a ≤ x := by
  induction t with
  | nil => intro a; exact ⟨le_refl _, by simp⟩
  | cons b t ih =>
    intro a
    rw [List.foldl_cons]
    obtain ⟨h1, h2⟩ := ih (min a b)
    refine ⟨le_trans h1 (min_le_left a b), ?_⟩
    intro x hx
    rcases List.mem_cons.mp hx with rfl | hx
    · exact le_trans h1 (min_le_right a x)
    · exact h2 x hx

lemma mem_le_maxWpmOf {l : List ℤ} {x : ℤ} (hx : x ∈ l) : x ≤ maxWpmOf l := by
  match l, hx with
  | a :: t, hx =>
    show x ≤ ((a :: t).max?).getD 0
    rcases List.mem_cons.mp hx with rfl | hx
    · exact (le_foldl_max t x).1
    · exact (le_foldl_max t a).2 x hx

lemma minWpmOf_le_mem {l : List ℤ} {x : ℤ} (hx : x ∈ l) : minWpmOf l ≤ x := by
  match l, hx with
  | a :: t, hx =>
    show ((a :: t).min?).getD 0 ≤ x
    rcases List.mem_cons.mp hx with rfl | hx
    · exact (foldl_min_le t x).1
    · exact (foldl_min_le t a).2 x hx

end App

namespace App

lemma ratesInv_runLoop (s : AppState) (now : ℤ) (h : RatesInv s) :
    RatesInv (runLoop s now).1 := by
  unfold runLoop
  split
  · exact h
  · split
    · exact h
    · rename_i hplay hrun
      obtain ⟨hch, hbd⟩ := h
      set chunk := (s.words.drop s.currentIndex).take s.chunkSize with hchunk
      set w' : ℚ := min 1200 (s.wpm + 1 / 2 * chunk.length) with hw'
      have hlen0 : (0 : ℚ) ≤ 1 / 2 * chunk.length := by positivity
      have hmono : min 1200 s.wpm ≤ w' := min_le_min (le_refl _) (by linarith)
      have hcap : w' ≤ 1200 := min_le_left _ _
      have hminw' : min (1200 : ℚ) w' = w' := min_eq_right hcap
      have hr1200 : round w' ≤ 1200 := by
        have := round_mono_q hcap
        simpa using this
      have hold : ∀ r ∈ ratesOf s, r ≤ round w' := fun r hr =>
        le_trans ((hbd r hr).2) (round_mono_q hmono)
      constructor
      · show ((s.sessionData ++ _).map Sample.wpm).Chain' (· ≤ ·)
        rw [List.map_append, List.chain'_append]
        refine ⟨hch, by simp, ?_⟩
        intro x hx y hy
        simp only [List.map_cons, List.map_nil, List.head?_cons,
          Option.mem_def, Option.some.injEq] at hy
        subst hy
        obtain ⟨hx', hx''⟩ := List.mem_getLast?_eq_getLast hx
        exact hold x (hx'' ▸ List.getLast_mem hx')
      · show ∀ r ∈ (s.sessionData ++ _).map Sample.wpm, _
        intro r hr
        rw [List.map_append, List.mem_append] at hr
        rcases hr with hr | hr
        · exact ⟨(hbd r hr).1, by rw [hminw']; exact hold r hr⟩
        · simp only [List.map_cons, List.map_nil, List.mem_singleton] at hr
          subst hr
          exact ⟨hr1200, by rw [hminw']⟩

lemma ratesInv_runTicks (times : List ℤ) : ∀ s : AppState,
    RatesInv s → RatesInv (runTicks s times) := by
  induction times with
  | nil => intro s h; exact h
  | cons t ts ih =>
    intro s h
    show RatesInv ((t :: ts).foldl (fun s t => (runLoop s t).1) s)
    rw [List.foldl_cons]
    exact ih _ (ratesInv_runLoop s t h)

end App

/-! ### Claim theorems -/

lemma not_isEmpty_of_ne_nil {text : List Char} (h : text ≠ []) : ¬text.isEmpty := by
  simp [List.isEmpty_iff, h]

/-- C1: for a non-empty `text` and a remembered anchor `c` with at least one
case-insensitive match in `text`, `process` returns a matching index that is
closest to `Math.floor(text.length / 2)`, and on a distance tie the earliest
(lowest) index wins: a later equal-distance candidate never replaces an
earlier one. -/
theorem sticky_anchor_picks_center_closest_stable (c : Char) (text : List Char)
    (hne : text ≠ []) (hm : AnchorEngine.matchIdxs c text ≠ []) :
    (AnchorEngine.process (some c) text).1.pivotIndex ∈ AnchorEngine.matchIdxs c text ∧
      (∀ j ∈ AnchorEngine.matchIdxs c text,
        absDist (AnchorEngine.process (some c) text).1.pivotIndex (text.length / 2)
          ≤ absDist j (text.length / 2)) ∧
      ∀ j ∈ AnchorEngine.matchIdxs c text,
        absDist j (text.length / 2)
            = absDist (AnchorEngine.process (some c) text).1.pivotIndex (text.length / 2) →
          (AnchorEngine.process (some c) text).1.pivotIndex ≤ j := by
  obtain ⟨r, hr, hmem, hmin, htie⟩ :=
    AnchorEngine.pickClosest_spec (text.length / 2) (AnchorEngine.matchIdxs c text) hm
      (AnchorEngine.matchIdxs_pairwise c text)
  rw [AnchorEngine.process_pivot_of_sticky (not_isEmpty_of_ne_nil hne) hr]
  exact ⟨hmem, hmin, htie⟩

/-- C1 witness: with remembered anchor `'a'`, `"banana"` has matches at
indices 1, 3, 5 and center 3; the pivot is the center-closest match 3. -/
theorem sticky_anchor_picks_center_closest_stable_witness :
    (['b', 'a', 'n', 'a', 'n', 'a'] : List Char) ≠ [] ∧
      AnchorEngine.matchIdxs 'a' ['b', 'a', 'n', 'a', 'n', 'a'] ≠ [] ∧
      ((AnchorEngine.process (some 'a') ['b', 'a', 'n', 'a', 'n', 'a']).1.pivotIndex
          ∈ AnchorEngine.matchIdxs 'a' ['b', 'a', 'n', 'a', 'n', 'a'] ∧
        (∀ j ∈ AnchorEngine.matchIdxs 'a' ['b', 'a', 'n', 'a', 'n', 'a'],
          absDist (AnchorEngine.process (some 'a') ['b', 'a', 'n', 'a', 'n', 'a']).1.pivotIndex 3
            ≤ absDist j 3) ∧
        ∀ j ∈ AnchorEngine.matchIdxs 'a' ['b', 'a', 'n', 'a', 'n', 'a'],
          absDist j 3
              = absDist (AnchorEngine.process (some 'a') ['b', 'a', 'n', 'a', 'n', 'a']).1.pivotIndex 3 →
            (AnchorEngine.process (some 'a') ['b', 'a', 'n', 'a', 'n', 'a']).1.pivotIndex ≤ j) :=
  ⟨by decide, by decide,
    sticky_anchor_picks_center_closest_stable 'a' ['b', 'a', 'n', 'a', 'n', 'a']
      (by decide) (by decide)⟩

/-- C2: for non-empty `text`, when no anchor is remembered or the remembered
anchor matches nowhere, `process` falls back to
`pivotIndex = max(0, ceil(length / 2) - 1)`. -/
theorem fallback_pivot_formula (st : Option Char) (text : List Char)
    (hne : text ≠ [])
    (hnomatch : ∀ c, st = some c → AnchorEngine.matchIdxs c text = []) :
    ((AnchorEngine.process st text).1.pivotIndex : ℤ)
      = max 0 (⌈(text.length : ℚ) / 2⌉ - 1) := by
  cases st with
  | none =>
    rw [AnchorEngine.process_pivot_fb_none (not_isEmpty_of_ne_nil hne),
      AnchorEngine.fallbackPivot_coe]
  | some c =>
    rw [AnchorEngine.process_pivot_fb_nomatch (not_isEmpty_of_ne_nil hne) (hnomatch c rfl),
      AnchorEngine.fallbackPivot_coe]

/-- C2 witness: `"hello"` with the unmatched remembered anchor `'z'` gets
the fallback pivot `max(0, ceil(5/2) - 1) = 2`. -/
theorem fallback_pivot_formula_witness :
    (['h', 'e', 'l', 'l', 'o'] : List Char) ≠ [] ∧
      AnchorEngine.matchIdxs 'z' ['h', 'e', 'l', 'l', 'o'] = [] ∧
      ((AnchorEngine.process (some 'z') ['h', 'e', 'l', 'l', 'o']).1.pivotIndex : ℤ)
          = max 0 (⌈((['h', 'e', 'l', 'l', 'o'] : List Char).length : ℚ) / 2⌉ - 1) ∧
      (AnchorEngine.process (some 'z') ['h', 'e', 'l', 'l', 'o']).1.pivotIndex = 2 :=
  ⟨by decide, by decide,
    fallback_pivot_formula (some 'z') ['h', 'e', 'l', 'l', 'o'] (by decide)
      (fun c hc => by
        injection hc with hc
        subst hc
        decide),
    by decide⟩

/-- C6: for every non-empty `text` and every engine state, the returned
pivot index is a valid index of `text`. -/
theorem pivot_index_in_bounds (st : Option Char) (text : List Char)
    (hne : text ≠ []) :
    (AnchorEngine.process st text).1.pivotIndex < text.length := by
  have hE := not_isEmpty_of_ne_nil hne
  have hlen : 1 ≤ text.length := List.length_pos.mpr hne
  cases st with
  | none =>
    rw [AnchorEngine.process_pivot_fb_none hE]
    exact AnchorEngine.fallbackPivot_lt hlen
  | some c =>
    rcases hmc : AnchorEngine.pickClosest (text.length / 2) (AnchorEngine.matchIdxs c text)
      with _ | r
    · rw [AnchorEngine.process_pivot_fb_nomatch hE
        ((AnchorEngine.pickClosest_eq_none _ _).mp hmc)]
      exact AnchorEngine.fallbackPivot_lt hlen
    · rw [AnchorEngine.process_pivot_of_sticky hE hmc]
      exact (AnchorEngine.mem_matchIdxs.mp
        (AnchorEngine.pickClosest_mem _ _ r hmc)).1

/-- C6 witness: with anchor `'a'` on `"banana"` the pivot 3 is below the
length 6. -/
theorem pivot_index_in_bounds_witness :
    (['b', 'a', 'n', 'a', 'n', 'a'] : List Char) ≠ [] ∧
      (AnchorEngine.process (some 'a') ['b', 'a', 'n', 'a', 'n', 'a']).1.pivotIndex
        < (['b', 'a', 'n', 'a', 'n', 'a'] : List Char).length :=
  ⟨by decide, pivot_index_in_bounds (some 'a') ['b', 'a', 'n', 'a', 'n', 'a'] (by decide)⟩

/-- C7: on the empty string, `process` returns the defined degenerate
result — pivot index 0 and the empty anchor character — in every engine
state, rather than failing. -/
theorem empty_input_degenerate_result (st : Option Char) :
    (AnchorEngine.process st []).1 = { pivotIndex := 0, anchorChar := none } := rfl

/-- C10: on the empty string, `process` returns before the anchor update,
so the remembered anchor character is left unchanged in every engine
state. -/
theorem empty_input_preserves_anchor (st : Option Char) :
    (AnchorEngine.process st []).2 = st := rfl

/-- C3: the delay for a tick is `msPerWord × chunkLength` plus a
punctuation pause of `msPerWord × 1.5` when the chunk's last word ends in
`.`, `!` or `?`, else `msPerWord × 0.5` when it ends in `,` or `;`, else
nothing — with `msPerWord = 60000 / rate`; in particular the single-word
chunk `"end."` at 300 WPM yields 500 ms. -/
theorem tick_delay_formula (chunk : List (List Char)) (r : ℚ) (hne : chunk ≠ []) :
    App.delayFor chunk r
        = 60000 / r * chunk.length
          + (if (chunk.getLast hne).getLast? = some '.' ∨
                (chunk.getLast hne).getLast? = some '!' ∨
                (chunk.getLast hne).getLast? = some '?' then
              60000 / r * (3 / 2)
            else if (chunk.getLast hne).getLast? = some ',' ∨
                (chunk.getLast hne).getLast? = some ';' then
              60000 / r * (1 / 2)
            else 0) ∧
      App.delayFor [['e', 'n', 'd', '.']] 300 = 500 := by
  constructor
  · unfold App.delayFor
    rw [show (chunk.getLast?).getD [] = chunk.getLast hne by
      rw [List.getLast?_eq_getLast chunk hne]
      rfl]
  · norm_num [App.delayFor]

/-- C3 witness: the `"end."` boundary case itself. -/
theorem tick_delay_formula_witness :
    ([['e', 'n', 'd', '.']] : List (List Char)) ≠ [] ∧
      App.delayFor [['e', 'n', 'd', '.']] 300 = 500 :=
  ⟨by decide, (tick_delay_formula [['e', 'n', 'd', '.']] 300 (by decide)).2⟩

/-- C5: starting from a fresh session (empty time series), any number of
ticks — in particular an uninterrupted run to completion under the
built-in 0.5 WPM/word acceleration — records a non-decreasing sequence of
rates, each at most the 1200 WPM maximum. -/
theorem recorded_rates_monotone_capped (s : App.AppState) (times : List ℤ)
    (h0 : s.sessionData = []) :
    (App.ratesOf (App.runTicks s times)).Chain' (· ≤ ·) ∧
      ∀ r ∈ App.ratesOf (App.runTicks s times), r ≤ 1200 := by
  have h : App.RatesInv s := by
    constructor <;> simp [App.ratesOf, h0]
  have h' := App.ratesInv_runTicks times s h
  exact ⟨h'.1, fun r hr => (h'.2 r hr).1⟩

/-- C5 witness: running the two-word demo session to completion (three
ticks) yields recorded rates `[301, 301]`, non-decreasing and within the
cap. -/
theorem recorded_rates_monotone_capped_witness :
    demoState.sessionData = [] ∧
      ((App.ratesOf (App.runTicks demoState [0, 100, 200])).Chain' (· ≤ ·) ∧
        ∀ r ∈ App.ratesOf (App.runTicks demoState [0, 100, 200]), r ≤ 1200) :=
  ⟨rfl, recorded_rates_monotone_capped demoState [0, 100, 200] rfl⟩

/-- C9: on an active tick (playing, words remaining), the 0.5 WPM/word
acceleration capped at 1200 is applied to the rate first; the recorded
sample's rate is the rounded post-increment rate and the scheduled delay
is computed from the post-increment rate, not from the rate the chunk was
requested at. -/
theorem acceleration_applied_before_sample_and_delay (s : App.AppState) (now : ℤ)
    (hp : s.isPlaying = true) (hlt : s.currentIndex < s.words.length) :
    (App.runLoop s now).1.wpm
        = min 1200 (s.wpm + 1 / 2 * ((s.words.drop s.currentIndex).take s.chunkSize).length) ∧
      (App.runLoop s now).1.sessionData
        = s.sessionData
          ++ [{ words := App.joinSpace ((s.words.drop s.currentIndex).take s.chunkSize),
                wpm := round (App.runLoop s now).1.wpm,
                timestamp := now - s.sessionStartTime }] ∧
      (App.runLoop s now).2
        = some (App.delayFor ((s.words.drop s.currentIndex).take s.chunkSize)
            (App.runLoop s now).1.wpm) := by
  unfold App.runLoop
  rw [if_neg (by simp [hp]), if_neg (not_le.mpr hlt)]
  exact ⟨rfl, rfl, rfl⟩

/-- C9 witness: the first tick of the demo session records rate
`round(300.5) = 301` and schedules the delay at the accelerated rate. -/
theorem acceleration_applied_before_sample_and_delay_witness :
    demoState.isPlaying = true ∧ demoState.currentIndex < demoState.words.length ∧
      ((App.runLoop demoState 0).1.wpm
          = min 1200 (demoState.wpm
              + 1 / 2 * ((demoState.words.drop demoState.currentIndex).take
                  demoState.chunkSize).length) ∧
        (App.runLoop demoState 0).1.sessionData
          = demoState.sessionData
            ++ [{ words := App.joinSpace ((demoState.words.drop demoState.currentIndex).take
                    demoState.chunkSize),
                  wpm := round (App.runLoop demoState 0).1.wpm,
                  timestamp := 0 - demoState.sessionStartTime }] ∧
        (App.runLoop demoState 0).2
          = some (App.delayFor ((demoState.words.drop demoState.currentIndex).take
              demoState.chunkSize) (App.runLoop demoState 0).1.wpm)) :=
  ⟨rfl, by decide,
    acceleration_applied_before_sample_and_delay demoState 0 rfl (by decide)⟩

/-- C8: for a sample of a non-empty time series, the heatmap intensity is
`(rate - min) / (max - min)` over the recorded rates whenever the extrema
differ, and is 0 when they coincide; the division's denominator is never
zero. -/
theorem heatmap_intensity_normalized (data : List App.Sample) (item : App.Sample)
    (hne : data ≠ []) (hmem : item ∈ data) :
    (App.maxWpmOf (data.map App.Sample.wpm) = App.minWpmOf (data.map App.Sample.wpm) →
        App.normalizedIntensity data item = 0) ∧
      (App.maxWpmOf (data.map App.Sample.wpm) ≠ App.minWpmOf (data.map App.Sample.wpm) →
        App.normalizedIntensity data item
          = ((item.wpm : ℚ) - (App.minWpmOf (data.map App.Sample.wpm) : ℚ))
            / ((App.maxWpmOf (data.map App.Sample.wpm) : ℚ)
                - (App.minWpmOf (data.map App.Sample.wpm) : ℚ))) ∧
      ∃ d : ℚ, d ≠ 0 ∧
        App.normalizedIntensity data item
          = ((item.wpm : ℚ) - (App.minWpmOf (data.map App.Sample.wpm) : ℚ)) / d := by
  have hwm : item.wpm ∈ data.map App.Sample.wpm := List.mem_map_of_mem _ hmem
  have hmax := App.mem_le_maxWpmOf hwm
  have hmin := App.minWpmOf_le_mem hwm
  refine ⟨?_, ?_, ?_⟩
  · intro heq
    have hflat : item.wpm = App.minWpmOf (data.map App.Sample.wpm) :=
      le_antisymm (heq ▸ hmax) hmin
    simp [App.normalizedIntensity, heq, hflat]
  · intro hdiff
    have hd : (App.maxWpmOf (data.map App.Sample.wpm) : ℚ)
        - (App.minWpmOf (data.map App.Sample.wpm) : ℚ) ≠ 0 := by
      rw [sub_ne_zero]
      exact_mod_cast hdiff
    simp [App.normalizedIntensity, if_neg hd]
  · refine ⟨if ((App.maxWpmOf (data.map App.Sample.wpm) : ℚ)
        - (App.minWpmOf (data.map App.Sample.wpm) : ℚ)) = 0 then 1
      else (App.maxWpmOf (data.map App.Sample.wpm) : ℚ)
        - (App.minWpmOf (data.map App.Sample.wpm) : ℚ), ?_, rfl⟩
    split
    · norm_num
    · assumption

/-- C8 witness: in the two-rate demo series (300, 350), the first sample's
intensity is `(300 - 300) / (350 - 300) = 0` with a nonzero denominator. -/
theorem heatmap_intensity_normalized_witness :
    demoSamples ≠ [] ∧
      { words := ['a'], wpm := 300, timestamp := 0 } ∈ demoSamples ∧
      ((App.maxWpmOf (demoSamples.map App.Sample.wpm)
            = App.minWpmOf (demoSamples.map App.Sample.wpm) →
          App.normalizedIntensity demoSamples { words := ['a'], wpm := 300, timestamp := 0 } = 0) ∧
        (App.maxWpmOf (demoSamples.map App.Sample.wpm)
            ≠ App.minWpmOf (demoSamples.map App.Sample.wpm) →
          App.normalizedIntensity demoSamples { words := ['a'], wpm := 300, timestamp := 0 }
            = (((300 : ℤ) : ℚ) - (App.minWpmOf (demoSamples.map App.Sample.wpm) : ℚ))
              / ((App.maxWpmOf (demoSamples.map App.Sample.wpm) : ℚ)
                  - (App.minWpmOf (demoSamples.map App.Sample.wpm) : ℚ))) ∧
        ∃ d : ℚ, d ≠ 0 ∧
          App.normalizedIntensity demoSamples { words := ['a'], wpm := 300, timestamp := 0 }
            = (((300 : ℤ) : ℚ) - (App.minWpmOf (demoSamples.map App.Sample.wpm) : ℚ)) / d) :=
  ⟨by decide, by decide,
    heatmap_intensity_normalized demoSamples { words := ['a'], wpm := 300, timestamp := 0 }
      (by decide) (by decide)⟩

/-- C4 counterexample: changing the rate while the demo session is Running
(slider handler: `stop()` then `start()`) overwrites the recorded session
start timestamp with the current time — `start()` executes
`this.sessionStartTime = Date.now()` — so the claim's "without resetting
… the session start timestamp" fails at this concrete input. -/
theorem rate_change_resets_session_start :
    (App.handleWpmInput demoState 400 1000).1.sessionStartTime
      ≠ demoState.sessionStartTime := by
  decide

/-- C4 (amended): when the rate is changed by the driver while playback is
Running with words remaining, the handler stops the pending tick and
immediately re-runs the loop at the new rate — the next delay is computed
from the new rate (plus its acceleration increment), `currentIndex` is not
reset (it advances by one chunk), and the recorded time series is kept
(one sample at the new rate is appended) — but the session start timestamp
is reset to the current time, so the new sample's relative timestamp is
0. -/
theorem rate_change_restart_behavior (s : App.AppState) (v now : ℤ)
    (hp : s.isPlaying = true) (hlt : s.currentIndex < s.words.length) :
    (App.handleWpmInput s v now).1.sessionStartTime = now ∧
      (App.handleWpmInput s v now).1.currentIndex = s.currentIndex + s.chunkSize ∧
      (App.handleWpmInput s v now).1.sessionData
        = s.sessionData
          ++ [{ words := App.joinSpace ((s.words.drop s.currentIndex).take s.chunkSize),
                wpm := round (min 1200 ((v : ℚ)
                    + 1 / 2 * ((s.words.drop s.currentIndex).take s.chunkSize).length)),
                timestamp := 0 }] ∧
      (App.handleWpmInput s v now).2
        = some (App.delayFor ((s.words.drop s.currentIndex).take s.chunkSize)
            (min 1200 ((v : ℚ)
                + 1 / 2 * ((s.words.drop s.currentIndex).take s.chunkSize).length))) := by
  have hnle : ¬s.words.length ≤ s.currentIndex := not_le.mpr hlt
  simp only [App.handleWpmInput, App.stop, App.start, App.runLoop, hp, hnle,
    if_true, if_false, Bool.true_eq_false, ite_true, ite_false, sub_self]
  exact ⟨by trivial, by trivial, by trivial, by trivial⟩

/-- C4 (amended) witness: the demo session, rate changed to 400 at time
1000: one chunk is consumed at rate `round(400.5) = 401` and the session
start timestamp becomes 1000. -/
theorem rate_change_restart_behavior_witness :
    demoState.isPlaying = true ∧ demoState.currentIndex < demoState.words.length ∧
      ((App.handleWpmInput demoState 400 1000).1.sessionStartTime = 1000 ∧
        (App.handleWpmInput demoState 400 1000).1.currentIndex
          = demoState.currentIndex + demoState.chunkSize ∧
        (App.handleWpmInput demoState 400 1000).1.sessionData
          = demoState.sessionData
            ++ [{ words := App.joinSpace ((demoState.words.drop demoState.currentIndex).take
                    demoState.chunkSize),
                  wpm := round (min 1200 ((400 : ℚ)
                      + 1 / 2 * ((demoState.words.drop demoState.currentIndex).take
                          demoState.chunkSize).length)),
                  timestamp := 0 }] ∧
        (App.handleWpmInput demoState 400 1000).2
          = some (App.delayFor ((demoState.words.drop demoState.currentIndex).take
              demoState.chunkSize)
              (min 1200 ((400 : ℚ)
                  + 1 / 2 * ((demoState.words.drop demoState.currentIndex).take
                      demoState.chunkSize).length)))) :=
  ⟨rfl, by decide, rate_change_restart_behavior demoState 400 1000 rfl (by decide)⟩
